import Mathlib

/-!
A shallow embedding of the `region-allocator` Rust crate (`src/lib.rs`).

The crate stores a `BTreeSet<Region>` where `Region { base, size }` derives
the lexicographic order on `(base, size)`.  We model the `BTreeSet` as a
`List Region` kept sorted in that order:

* `drain_filter p` becomes a pair of `List.filter` calls (elements are
  drained in ascending order, and the remaining elements keep their order);
* `insert` becomes ordered insertion `insert_internal` that skips an
  element already present;
* iteration (`for r in &self.regions`) is iteration over the list.

`usize` is modelled as `Nat`: the crate never guards against overflow and
the spec treats overflow as a caller contract violation, so all claims are
about the non-wrapping executions.  The natural subtractions that do occur
in the source (`src.base - target.base`, `t_end - s_end`, `t_end - size`,
`alignment - 1`) are each guarded by a conditional in the source, exactly
as in the Rust code, so `Nat` truncated subtraction agrees with `usize`
subtraction there.

`(r.base + align) & !align` (with `align = alignment - 1`, `alignment` a
power of two) clears the low `log2 alignment` bits of its argument on any
machine word width, i.e. it rounds down to a multiple of `alignment`; we
model it as `x - x % alignment` and, to anchor the translation, prove in
`land_complement_mask` that for `x < 2 ^ w` and `k ≤ w` the machine
expression `x &&& (2 ^ w - 2 ^ k)` equals `x - x % 2 ^ k`.

`usize::is_power_of_two` is the Rust standard library's test for `∃ k,
n = 2 ^ k`; it is modelled by that exact specification, decidably.
-/

/-- `Region { base: usize, size: usize }`, the half-open interval
`[base, base + size)`. -/
structure Region where
  base : Nat
  size : Nat
deriving DecidableEq, Repr

namespace Region

/-- The right endpoint `base + size` of a region (named `a_end`, `b_end`,
`t_end`, `s_end` in the source). -/
def last (r : Region) : Nat := r.base + r.size

/-- The derived `Ord` instance of the Rust `Region`: lexicographic on
`(base, size)`. -/
def lt (a b : Region) : Prop :=
  a.base < b.base ∨ (a.base = b.base ∧ a.size < b.size)

instance decLt (a b : Region) : Decidable (lt a b) := by unfold lt; infer_instance

theorem lt_irrefl (a : Region) : ¬ lt a a := by
  rcases a with ⟨b, s⟩
  simp [lt]

theorem lt_trans {a b c : Region} (h1 : lt a b) (h2 : lt b c) : lt a c := by
  rcases h1 with h1 | ⟨h1, h1'⟩ <;> rcases h2 with h2 | ⟨h2, h2'⟩
  · exact Or.inl (h1.trans h2)
  · exact Or.inl (h2 ▸ h1)
  · exact Or.inl (h1 ▸ h2)
  · exact Or.inr ⟨h1.trans h2, h1'.trans h2'⟩

theorem lt_asymm {a b : Region} (h : lt a b) : ¬ lt b a := by
  intro h'
  exact lt_irrefl a (lt_trans h h')

theorem lt_total (a b : Region) : lt a b ∨ a = b ∨ lt b a := by
  rcases a with ⟨ab, as⟩; rcases b with ⟨bb, bs⟩
  rcases Nat.lt_trichotomy ab bb with h | h | h
  · exact Or.inl (Or.inl h)
  · rcases Nat.lt_trichotomy as bs with h' | h' | h'
    · exact Or.inl (Or.inr ⟨h, h'⟩)
    · exact Or.inr (Or.inl (by simp [h, h']))
    · exact Or.inr (Or.inr (Or.inr ⟨h.symm, h'⟩))
  · exact Or.inr (Or.inr (Or.inl h))

end Region

/-- Separation of two regions: `a` lies strictly below `b`, with a gap
(not even adjacent).  The **invariant** of the allocator is that the stored
list is pairwise separated in list order. -/
def RegSep (a b : Region) : Prop := a.last < b.base

instance decRegSep (a b : Region) : Decidable (RegSep a b) := by
  unfold RegSep; infer_instance

namespace RegionAllocator

/-- The `drain_filter` predicate of `intersection_all`:
`!(r.base > region.base + region.size || r.base + r.size < region.base)`,
i.e. `r` overlaps or touches `region` (boundary inclusive). -/
def touches (r region : Region) : Prop :=
  ¬ (r.base > region.base + region.size ∨ r.base + r.size < region.base)

instance decTouches (r region : Region) : Decidable (touches r region) := by
  unfold touches; infer_instance

theorem touches_iff (r region : Region) :
    touches r region ↔ r.base ≤ region.last ∧ region.base ≤ r.last := by
  unfold touches Region.last
  omega

/-- `BTreeSet::insert`, on the sorted-list model: ordered insertion that
keeps an already-present element. -/
def insert_internal (a : Region) : List Region → List Region
  | [] => [a]
  | b :: l =>
    if Region.lt a b then a :: b :: l
    else if a = b then b :: l
    else b :: insert_internal a l

/-- The elements drained by `intersection_all(region)`, in ascending
order. -/
def intersection_all (s : List Region) (region : Region) : List Region :=
  s.filter (fun r => decide (touches r region))

/-- The elements left in the set by `intersection_all(region)`. -/
def remainder_all (s : List Region) (region : Region) : List Region :=
  s.filter (fun r => ! decide (touches r region))

/-- `merge_internal(a, b)`: if `b` does not touch `a`, give `b` back to be
reinserted; otherwise grow `a` to the hull of `a` and `b`.  The mutable
`a` is modelled by returning the new `a`. -/
def merge_internal (a b : Region) : Region × Option Region :=
  if a.last < b.base ∨ b.last < a.base then
    (a, some b)
  else
    let new_base := min a.base b.base
    let new_end := max a.last b.last
    (⟨new_base, new_end - new_base⟩, none)

/-- The loop body of `add`: merge `b` into the growing candidate,
reinserting `b` when `merge_internal` hands it back. -/
def add_step (st : Region × List Region) (b : Region) : Region × List Region :=
  match merge_internal st.1 b with
  | (a, some r) => (a, insert_internal r st.2)
  | (a, none) => (a, st.2)

/-- `RegionAllocator::add(base, size)`. -/
def add (s : List Region) (base size : Nat) : List Region :=
  let new_region : Region := ⟨base, size⟩
  let overlaps := intersection_all s new_region
  let rest := remainder_all s new_region
  let res := overlaps.foldl add_step (new_region, rest)
  insert_internal res.1 res.2

/-- `subtract_internal(target, src)`: the left and right remainders of
`target` after cutting out `src`.  `src` is only read, never written. -/
def subtract_internal (target src : Region) : Option Region × Option Region :=
  let t_end := target.last
  let s_end := src.last
  let left :=
    if src.base > target.base then
      some (⟨target.base, min target.size (src.base - target.base)⟩ : Region)
    else none
  let right :=
    if s_end < t_end then
      let size := min target.size (t_end - s_end)
      some (⟨t_end - size, size⟩ : Region)
    else none
  (left, right)

/-- The loop body of `subtract`: reinsert whichever remainders of `b`
exist. -/
def sub_step (src : Region) (acc : List Region) (b : Region) : List Region :=
  let res := subtract_internal b src
  let acc1 := match res.1 with
    | some l => insert_internal l acc
    | none => acc
  match res.2 with
  | some r => insert_internal r acc1
  | none => acc1

/-- `RegionAllocator::subtract(base, size)`. -/
def subtract (s : List Region) (base size : Nat) : List Region :=
  let new_region : Region := ⟨base, size⟩
  let overlaps := intersection_all s new_region
  let rest := remainder_all s new_region
  overlaps.foldl (sub_step new_region) rest

/-- `RegionAllocator::add_or_subtract(base, size, is_add)`. -/
def add_or_subtract (s : List Region) (base size : Nat) (is_add : Bool) :
    List Region :=
  if is_add then add s base size else subtract s base size

/-- `RegionAllocator::check_region(base, size)`: exact membership. -/
def check_region (s : List Region) (base size : Nat) : Bool :=
  s.contains ⟨base, size⟩

/-- `RegionAllocator::len()`. -/
def len (s : List Region) : Nat := s.length

/-- `RegionAllocator::is_empty()`. -/
def is_empty (s : List Region) : Bool := s.isEmpty

/-- `RegionAllocator::check_point(addr)`: the source tests
`r.base <= addr && addr <= r.base + r.size` — closed at both ends. -/
def check_point (s : List Region) (addr : Nat) : Bool :=
  s.any (fun r => decide (r.base ≤ addr) && decide (addr ≤ r.base + r.size))

/-- `RegionAllocator::allocate_by_addr(base, size)`: scan for a region
fully containing `[base, base + size)`; on the first hit subtract that
range and report success.  Which region is hit does not change the
mutation, so the scan is `List.any`. -/
def allocate_by_addr (s : List Region) (base size : Nat) :
    Bool × List Region :=
  if s.any (fun r => decide (r.base ≤ base) && decide (base + size ≤ r.base + r.size)) then
    (true, subtract s base size)
  else
    (false, s)

/-- `usize::is_power_of_two`, by its standard-library specification:
`n` is `2 ^ k` for some `k` (decided through the witness bound `k ≤ n`). -/
def is_power_of_two (n : Nat) : Bool :=
  decide (∃ k, k ≤ n ∧ n = 2 ^ k)

/-- `x & !align` for `align = alignment - 1`, `alignment` a power of two:
rounds `x` down to a multiple of `alignment`.  See the header comment and
`Nat.land_two_pow_sub` for the bit-level justification. -/
def mask_down (x alignment : Nat) : Nat := x - x % alignment

/-- The scan loop of `allocate_by_size`: first region, in ascending
order, that is large enough and can host an aligned block; returns that
block. -/
def find_by_size (size alignment : Nat) : List Region → Option (Nat × Nat)
  | [] => none
  | r :: rest =>
    if size > r.size then find_by_size size alignment rest
    else
      let base := mask_down (r.base + (alignment - 1)) alignment
      if r.base ≤ base ∧ base + size ≤ r.base + r.size then some (base, size)
      else find_by_size size alignment rest

/-- `RegionAllocator::allocate_by_size(size, alignment)`. -/
def allocate_by_size (s : List Region) (size alignment : Nat) :
    Option (Nat × Nat) × List Region :=
  if ! is_power_of_two alignment then (none, s)
  else
    match find_by_size size alignment s with
    | some (base, sz) => (some (base, sz), subtract s base sz)
    | none => (none, s)

/-- `RegionAllocator::new()`. -/
def new : List Region := []

end RegionAllocator

/-- One public mutating call, for stating properties of call sequences. -/
inductive AllocOp where
  | addOp (base size : Nat)
  | subOp (base size : Nat)
deriving DecidableEq, Repr

/-- Run one call. -/
def applyOp (s : List Region) : AllocOp → List Region
  | .addOp b sz => RegionAllocator.add s b sz
  | .subOp b sz => RegionAllocator.subtract s b sz

/-- Run a sequence of calls, starting from a given state. -/
def applyOps (s : List Region) (ops : List AllocOp) : List Region :=
  ops.foldl applyOp s

/-- The spec's invariant, exactly as claimed: any two distinct stored
regions are strictly separated (no overlap, no adjacency). -/
def SeparatedP (s : List Region) : Prop :=
  ∀ r1 ∈ s, ∀ r2 ∈ s, r1 ≠ r2 →
    r1.base + r1.size < r2.base ∨ r2.base + r2.size < r1.base

instance decSeparatedP (s : List Region) : Decidable (SeparatedP s) := by
  unfold SeparatedP; infer_instance

/-- The representation invariant we carry through proofs: the list is
pairwise separated in list order (this forces strict sortedness by
`Region.lt`, absence of duplicates, and `SeparatedP`). -/
def Canon (s : List Region) : Prop := List.Pairwise RegSep s

instance decCanon (s : List Region) : Decidable (Canon s) := by
  unfold Canon; infer_instance

/-- Half-open coverage of a point by the stored set: some stored region
contains `x` in `[base, base + size)`. -/
def covers (s : List Region) (x : Nat) : Prop :=
  ∃ r ∈ s, r.base ≤ x ∧ x < r.base + r.size

instance decCovers (s : List Region) (x : Nat) : Decidable (covers s x) := by
  unfold covers; infer_instance


/-! ## Basic facts about the list model -/

/-- Half-open membership of a point in one region. -/
def inReg (r : Region) (x : Nat) : Prop := r.base ≤ x ∧ x < r.base + r.size

instance decInReg (r : Region) (x : Nat) : Decidable (inReg r x) := by
  unfold inReg; infer_instance

namespace RegionAllocator

theorem mem_insert_internal {a x : Region} {l : List Region} :
    x ∈ insert_internal a l ↔ x = a ∨ x ∈ l := by
  induction l with
  | nil => simp [insert_internal]
  | cons b l ih =>
    simp only [insert_internal]
    by_cases h1 : Region.lt a b
    · rw [if_pos h1]
      simp only [List.mem_cons]
    · rw [if_neg h1]
      by_cases h2 : a = b
      · rw [if_pos h2]
        subst h2
        simp only [List.mem_cons]
        tauto
      · rw [if_neg h2]
        simp only [List.mem_cons, ih]
        tauto

theorem length_insert_internal_of_not_mem {a : Region} {l : List Region}
    (h : a ∉ l) : (insert_internal a l).length = l.length + 1 := by
  induction l with
  | nil => rfl
  | cons b l ih =>
    have hab : a ≠ b := by
      intro hab; exact h (hab ▸ List.mem_cons_self a l)
    simp only [insert_internal]
    by_cases h1 : Region.lt a b
    · rw [if_pos h1]
      simp
    · rw [if_neg h1, if_neg hab]
      have := ih (fun hm => h (List.mem_cons_of_mem b hm))
      simp only [List.length_cons, this]

theorem mem_partition {s : List Region} {c x : Region} :
    x ∈ s ↔ x ∈ intersection_all s c ∨ x ∈ remainder_all s c := by
  unfold intersection_all remainder_all
  by_cases h : touches x c <;> simp [List.mem_filter, h]

theorem mem_intersection_all {s : List Region} {c x : Region} :
    x ∈ intersection_all s c ↔ x ∈ s ∧ touches x c := by
  unfold intersection_all; simp [List.mem_filter]

theorem mem_remainder_all {s : List Region} {c x : Region} :
    x ∈ remainder_all s c ↔ x ∈ s ∧ ¬ touches x c := by
  unfold remainder_all; simp [List.mem_filter]

end RegionAllocator

theorem regSep_lt {a b : Region} (h : RegSep a b) : Region.lt a b := by
  unfold RegSep Region.last at h
  exact Or.inl (by omega)

theorem regSep_ne {a b : Region} (h : RegSep a b) : a ≠ b := by
  intro he
  subst he
  unfold RegSep Region.last at h
  omega

theorem canon_pairwise_lt {s : List Region} (h : Canon s) :
    List.Pairwise Region.lt s :=
  h.imp regSep_lt

theorem canon_sep_or {s : List Region} (h : Canon s) {a b : Region}
    (ha : a ∈ s) (hb : b ∈ s) (hne : a ≠ b) : RegSep a b ∨ RegSep b a := by
  have hsym : Symmetric (fun a b : Region => RegSep a b ∨ RegSep b a) :=
    fun _ _ h => h.symm
  exact (h.imp (fun hs => Or.inl hs)).forall hsym ha hb hne

theorem canon_separatedP {s : List Region} (h : Canon s) : SeparatedP s := by
  intro r1 h1 r2 h2 hne
  have := canon_sep_or h h1 h2 hne
  unfold RegSep Region.last at this
  exact this

theorem canon_filter {s : List Region} (h : Canon s) (p : Region → Bool) :
    Canon (s.filter p) :=
  List.Pairwise.sublist (List.filter_sublist s) h

theorem canon_insert {a : Region} {l : List Region} (hl : Canon l)
    (hz : ∀ z ∈ l, RegSep a z ∨ RegSep z a) :
    Canon (RegionAllocator.insert_internal a l) := by
  induction l with
  | nil => exact List.pairwise_singleton _ _
  | cons b l ih =>
    rcases List.pairwise_cons.mp hl with ⟨hb, hl'⟩
    by_cases h1 : Region.lt a b
    · rw [show RegionAllocator.insert_internal a (b :: l) = a :: b :: l from
        by simp only [RegionAllocator.insert_internal]; rw [if_pos h1]]
      refine List.pairwise_cons.mpr ⟨?_, hl⟩
      intro z hzm
      rcases hz z hzm with h | h
      · exact h
      · exfalso
        rcases List.mem_cons.mp hzm with rfl | hzl
        · rcases h1 with h' | ⟨h', _⟩ <;> (unfold RegSep Region.last at h; omega)
        · have hbz : RegSep b z := hb z hzl
          rcases h1 with h' | ⟨h', _⟩ <;>
            (unfold RegSep Region.last at h hbz; omega)
    · by_cases h2 : a = b
      · rw [show RegionAllocator.insert_internal a (b :: l) = b :: l from by
          simp only [RegionAllocator.insert_internal]; rw [if_neg h1, if_pos h2]]
        exact hl
      · rw [show RegionAllocator.insert_internal a (b :: l)
            = b :: RegionAllocator.insert_internal a l from by
          simp only [RegionAllocator.insert_internal]; rw [if_neg h1, if_neg h2]]
        refine List.pairwise_cons.mpr ⟨?_, ?_⟩
        · intro z hzm
          rcases RegionAllocator.mem_insert_internal.mp hzm with rfl | hzl
          · rcases hz b (List.mem_cons_self b l) with h | h
            · exact absurd (regSep_lt h) h1
            · exact h
          · exact hb z hzl
        · exact ih hl' (fun z hzl => hz z (List.mem_cons_of_mem b hzl))

theorem sorted_eq_of_mem_iff :
    ∀ {l1 l2 : List Region}, List.Pairwise Region.lt l1 →
      List.Pairwise Region.lt l2 → (∀ x, x ∈ l1 ↔ x ∈ l2) → l1 = l2
  | [], [], _, _, _ => rfl
  | [], b :: l2, _, _, hm => by
    exact absurd ((hm b).mpr (List.mem_cons_self b l2)) (List.not_mem_nil b)
  | a :: l1, [], _, _, hm => by
    exact absurd ((hm a).mp (List.mem_cons_self a l1)) (List.not_mem_nil a)
  | a :: l1, b :: l2, h1, h2, hm => by
    rcases List.pairwise_cons.mp h1 with ⟨ha, h1'⟩
    rcases List.pairwise_cons.mp h2 with ⟨hb, h2'⟩
    have hab : a = b := by
      by_contra hne
      have ha2 : a ∈ l2 := by
        rcases List.mem_cons.mp ((hm a).mp (List.mem_cons_self a l1)) with h | h
        · exact absurd h hne
        · exact h
      have hb1 : b ∈ l1 := by
        rcases List.mem_cons.mp ((hm b).mpr (List.mem_cons_self b l2)) with h | h
        · exact absurd h.symm hne
        · exact h
      exact Region.lt_asymm (ha b hb1) (hb a ha2)
    subst hab
    have hm' : ∀ x, x ∈ l1 ↔ x ∈ l2 := by
      intro x
      constructor
      · intro hx
        rcases List.mem_cons.mp ((hm x).mp (List.mem_cons_of_mem a hx)) with rfl | h
        · exact absurd (ha x hx) (Region.lt_irrefl x)
        · exact h
      · intro hx
        rcases List.mem_cons.mp ((hm x).mpr (List.mem_cons_of_mem a hx)) with rfl | h
        · exact absurd (hb x hx) (Region.lt_irrefl x)
        · exact h
    rw [sorted_eq_of_mem_iff h1' h2' hm']

/-! ## The add path: the candidate absorbs every drained region -/

namespace RegionAllocator

/-- The interval hull of two regions, as built by `merge_internal`. -/
def hull (a b : Region) : Region :=
  ⟨min a.base b.base, max a.last b.last - min a.base b.base⟩

theorem hull_base (a b : Region) : (hull a b).base = min a.base b.base := rfl

theorem hull_last (a b : Region) : (hull a b).last = max a.last b.last := by
  unfold hull Region.last
  simp only
  omega

theorem merge_internal_touching {a b : Region}
    (h1 : ¬ a.last < b.base) (h2 : ¬ b.last < a.base) :
    merge_internal a b = (hull a b, none) := by
  unfold merge_internal hull
  rw [if_neg (by tauto)]

theorem add_step_eq (a t : Region) (rest : List Region) :
    add_step (a, rest) t =
      match merge_internal a t with
      | (a2, some r) => (a2, insert_internal r rest)
      | (a2, none) => (a2, rest) := rfl

theorem add_foldl {c : Region} :
    ∀ {O : List Region} {acc : Region} {rest : List Region},
      (∀ t ∈ O, touches t c) → acc.base ≤ c.base → c.last ≤ acc.last →
      O.foldl add_step (acc, rest) = (O.foldl hull acc, rest)
  | [], _, _, _, _, _ => rfl
  | t :: O, acc, rest, hO, hb, hl => by
    have ht := (touches_iff t c).mp (hO t (List.mem_cons_self t O))
    have h1 : ¬ acc.last < t.base := by unfold Region.last at *; omega
    have h2 : ¬ t.last < acc.base := by unfold Region.last at *; omega
    have hstep : add_step (acc, rest) t = (hull acc t, rest) := by
      rw [add_step_eq, merge_internal_touching h1 h2]
    rw [List.foldl_cons, List.foldl_cons, hstep]
    exact add_foldl (fun u hu => hO u (List.mem_cons_of_mem t hu))
      (by rw [hull_base]; omega) (by rw [hull_last]; omega)

theorem foldl_hull_base_le : ∀ {O : List Region} {acc : Region},
    (O.foldl hull acc).base ≤ acc.base
  | [], _ => Nat.le_refl _
  | t :: O, acc => by
    rw [List.foldl_cons]
    exact Nat.le_trans (foldl_hull_base_le (O := O)) (by rw [hull_base]; omega)

theorem foldl_hull_last_ge : ∀ {O : List Region} {acc : Region},
    acc.last ≤ (O.foldl hull acc).last
  | [], _ => Nat.le_refl _
  | t :: O, acc => by
    rw [List.foldl_cons]
    exact Nat.le_trans (by rw [hull_last]; omega) (foldl_hull_last_ge (O := O))

theorem foldl_hull_base_mem : ∀ {O : List Region} {acc : Region},
    (O.foldl hull acc).base = acc.base ∨ ∃ t ∈ O, (O.foldl hull acc).base = t.base
  | [], _ => Or.inl rfl
  | t :: O, acc => by
    rw [List.foldl_cons]
    rcases @foldl_hull_base_mem O (hull acc t) with h | ⟨u, hu, h⟩
    · rw [hull_base] at h
      rcases min_choice acc.base t.base with hm | hm
      · exact Or.inl (h.trans hm)
      · exact Or.inr ⟨t, List.mem_cons_self t O, h.trans hm⟩
    · exact Or.inr ⟨u, List.mem_cons_of_mem t hu, h⟩

theorem foldl_hull_last_mem : ∀ {O : List Region} {acc : Region},
    (O.foldl hull acc).last = acc.last ∨ ∃ t ∈ O, (O.foldl hull acc).last = t.last
  | [], _ => Or.inl rfl
  | t :: O, acc => by
    rw [List.foldl_cons]
    rcases @foldl_hull_last_mem O (hull acc t) with h | ⟨u, hu, h⟩
    · rw [hull_last] at h
      rcases max_choice acc.last t.last with hm | hm
      · exact Or.inl (h.trans hm)
      · exact Or.inr ⟨t, List.mem_cons_self t O, h.trans hm⟩
    · exact Or.inr ⟨u, List.mem_cons_of_mem t hu, h⟩

theorem inReg_hull {a t : Region} (h1 : t.base ≤ a.last) (h2 : a.base ≤ t.last)
    (x : Nat) : inReg (hull a t) x ↔ inReg a x ∨ inReg t x := by
  unfold inReg hull Region.last at *
  simp only
  omega

theorem inReg_foldl_hull {c : Region} :
    ∀ {O : List Region} {acc : Region},
      (∀ t ∈ O, touches t c) → acc.base ≤ c.base → c.last ≤ acc.last →
      ∀ x, (inReg (O.foldl hull acc) x ↔ inReg acc x ∨ ∃ t ∈ O, inReg t x)
  | [], _, _, _, _, _ => by simp
  | t :: O, acc, hO, hb, hl, x => by
    have ht := (touches_iff t c).mp (hO t (List.mem_cons_self t O))
    rw [List.foldl_cons]
    have ih := @inReg_foldl_hull c O (hull acc t)
      (fun u hu => hO u (List.mem_cons_of_mem t hu))
      (by rw [hull_base]; omega) (by rw [hull_last]; omega) x
    rw [ih, inReg_hull (by unfold Region.last at *; omega)
      (by unfold Region.last at *; omega)]
    simp only [List.mem_cons]
    constructor
    · rintro ((h | h) | ⟨u, hu, h⟩)
      · exact Or.inl h
      · exact Or.inr ⟨t, Or.inl rfl, h⟩
      · exact Or.inr ⟨u, Or.inr hu, h⟩
    · rintro (h | ⟨u, rfl | hu, h⟩)
      · exact Or.inl (Or.inl h)
      · exact Or.inl (Or.inr h)
      · exact Or.inr ⟨u, hu, h⟩

theorem add_def (s : List Region) (b sz : Nat) :
    add s b sz =
      insert_internal
        ((intersection_all s ⟨b, sz⟩).foldl add_step
          (⟨b, sz⟩, remainder_all s ⟨b, sz⟩)).1
        ((intersection_all s ⟨b, sz⟩).foldl add_step
          (⟨b, sz⟩, remainder_all s ⟨b, sz⟩)).2 := rfl

theorem add_eq (s : List Region) (b sz : Nat) :
    add s b sz = insert_internal
      ((intersection_all s ⟨b, sz⟩).foldl hull ⟨b, sz⟩)
      (remainder_all s ⟨b, sz⟩) := by
  rw [add_def, add_foldl (fun t ht => (mem_intersection_all.mp ht).2)
    (Nat.le_refl _) (Nat.le_refl _)]

theorem covers_iff {s : List Region} {x : Nat} :
    covers s x ↔ ∃ r ∈ s, inReg r x := Iff.rfl

end RegionAllocator

/-! ## The subtract path -/

namespace RegionAllocator

theorem subtract_def (s : List Region) (b sz : Nat) :
    subtract s b sz =
      (intersection_all s ⟨b, sz⟩).foldl (sub_step ⟨b, sz⟩)
        (remainder_all s ⟨b, sz⟩) := rfl

theorem sub_step_eq (c : Region) (acc : List Region) (t : Region) :
    sub_step c acc t =
      match (subtract_internal t c).2 with
      | some r => insert_internal r
          (match (subtract_internal t c).1 with
           | some l => insert_internal l acc
           | none => acc)
      | none =>
          (match (subtract_internal t c).1 with
           | some l => insert_internal l acc
           | none => acc) := rfl

theorem mem_sub_step {c : Region} {acc : List Region} {t x : Region} :
    x ∈ sub_step c acc t ↔
      x ∈ acc ∨ (subtract_internal t c).1 = some x ∨
        (subtract_internal t c).2 = some x := by
  rw [sub_step_eq]
  rcases h1 : (subtract_internal t c).1 with _ | l <;>
    rcases h2 : (subtract_internal t c).2 with _ | r <;>
      (simp [mem_insert_internal, eq_comm]; try tauto)

theorem mem_sub_foldl {c : Region} :
    ∀ {O acc : List Region} {x : Region},
      (x ∈ O.foldl (sub_step c) acc ↔
        x ∈ acc ∨ ∃ t ∈ O,
          (subtract_internal t c).1 = some x ∨
          (subtract_internal t c).2 = some x)
  | [], acc, x => by simp
  | t :: O, acc, x => by
    rw [List.foldl_cons, mem_sub_foldl (O := O), mem_sub_step]
    simp only [List.mem_cons]
    constructor
    · rintro ((h | h) | ⟨u, hu, h⟩)
      · exact Or.inl h
      · exact Or.inr ⟨t, Or.inl rfl, h⟩
      · exact Or.inr ⟨u, Or.inr hu, h⟩
    · rintro (h | ⟨u, rfl | hu, h⟩)
      · exact Or.inl (Or.inl h)
      · exact Or.inl (Or.inr h)
      · exact Or.inr ⟨u, hu, h⟩

theorem pieces_inReg (t c : Region) (x : Nat) :
    ((∃ l, (subtract_internal t c).1 = some l ∧ inReg l x) ∨
     (∃ r, (subtract_internal t c).2 = some r ∧ inReg r x)) ↔
      (inReg t x ∧ ¬ inReg c x) := by
  by_cases h1 : c.base > t.base <;>
    by_cases h2 : c.base + c.size < t.base + t.size <;>
      (simp [subtract_internal, inReg, Region.last, h1, h2]; try omega)

theorem pieces_subset {t c p : Region}
    (h : (subtract_internal t c).1 = some p ∨
         (subtract_internal t c).2 = some p) :
    t.base ≤ p.base ∧ p.last ≤ t.last := by
  unfold Region.last
  by_cases h1 : c.base > t.base
  · by_cases h2 : c.base + c.size < t.base + t.size
    · simp only [subtract_internal, Region.last, if_pos h1, if_pos h2, Option.some.injEq] at h
      rcases h with h | h <;> (subst h; refine ⟨?_, ?_⟩ <;> (simp only; omega))
    · simp only [subtract_internal, Region.last, if_pos h1, if_neg h2, Option.some.injEq] at h
      rcases h with h | h
      · subst h
        refine ⟨?_, ?_⟩ <;> (simp only; omega)
      · exact absurd h (by simp)
  · by_cases h2 : c.base + c.size < t.base + t.size
    · simp only [subtract_internal, Region.last, if_neg h1, if_pos h2, Option.some.injEq] at h
      rcases h with h | h
      · exact absurd h (by simp)
      · subst h
        refine ⟨?_, ?_⟩ <;> (simp only; omega)
    · simp only [subtract_internal, Region.last, if_neg h1, if_neg h2] at h
      rcases h with h | h <;> exact absurd h (by simp)

theorem pieces_sep {t c l r : Region} (hsz : 0 < c.size)
    (hl : (subtract_internal t c).1 = some l)
    (hr : (subtract_internal t c).2 = some r) :
    RegSep l r := by
  by_cases h1 : c.base > t.base
  · by_cases h2 : c.base + c.size < t.base + t.size
    · simp [subtract_internal, Region.last, h1, h2] at hl hr
      unfold RegSep Region.last
      subst hl
      subst hr
      simp only
      omega
    · simp [subtract_internal, Region.last, h1, h2] at hr
  · simp [subtract_internal, Region.last, h1] at hl

end RegionAllocator

/-! ## Invariant preservation and coverage -/

namespace RegionAllocator

theorem canon_add {s : List Region} (h : Canon s) (b sz : Nat) :
    Canon (add s b sz) := by
  rw [add_eq]
  apply canon_insert (canon_filter h _)
  intro u hu
  rcases mem_remainder_all.mp hu with ⟨hus, hnt⟩
  have hnt' : (⟨b, sz⟩ : Region).last < u.base ∨ u.last < b := by
    rw [touches_iff] at hnt
    simp only [Region.last] at *
    omega
  rcases hnt' with hcase | hcase
  · left
    show (List.foldl hull ⟨b, sz⟩ (intersection_all s ⟨b, sz⟩)).last < u.base
    rcases @foldl_hull_last_mem (intersection_all s ⟨b, sz⟩)
        ⟨b, sz⟩ with he | ⟨t, ht, he⟩
    · rw [he]; exact hcase
    · rw [he]
      rcases mem_intersection_all.mp ht with ⟨hts, htt⟩
      have hne : t ≠ u := by rintro rfl; exact hnt htt
      rcases canon_sep_or h hts hus hne with hsep | hsep
      · exact hsep
      · exfalso
        rw [touches_iff] at htt
        simp only [RegSep, Region.last] at *
        omega
  · right
    show u.last < (List.foldl hull ⟨b, sz⟩ (intersection_all s ⟨b, sz⟩)).base
    rcases @foldl_hull_base_mem (intersection_all s ⟨b, sz⟩)
        ⟨b, sz⟩ with he | ⟨t, ht, he⟩
    · rw [he]; exact hcase
    · rw [he]
      rcases mem_intersection_all.mp ht with ⟨hts, htt⟩
      have hne : t ≠ u := by rintro rfl; exact hnt htt
      rcases canon_sep_or h hts hus hne with hsep | hsep
      · exfalso
        rw [touches_iff] at htt
        simp only [RegSep, Region.last] at *
        omega
      · exact hsep

theorem canon_sub_foldl {c : Region} (hsz : 0 < c.size) :
    ∀ {O acc : List Region}, Canon O → Canon acc →
      (∀ y ∈ acc, ∀ t ∈ O, RegSep y t ∨ RegSep t y) →
      Canon (O.foldl (sub_step c) acc)
  | [], acc, _, hacc, _ => hacc
  | t :: O, acc, hO, hacc, hsep => by
    rcases List.pairwise_cons.mp hO with ⟨htO, hO'⟩
    rw [List.foldl_cons]
    have hpieces : ∀ p, ((subtract_internal t c).1 = some p ∨
        (subtract_internal t c).2 = some p) →
        ∀ y ∈ acc, RegSep p y ∨ RegSep y p := by
      intro p hp y hy
      have hb := pieces_subset hp
      rcases hsep y hy t (List.mem_cons_self t O) with hyt | hty
      · right
        unfold RegSep at *
        omega
      · left
        unfold RegSep at *
        omega
    have hmem_step : ∀ y ∈ sub_step c acc t, y ∈ acc ∨
        (subtract_internal t c).1 = some y ∨
        (subtract_internal t c).2 = some y :=
      fun y hy => mem_sub_step.mp hy
    have hstep_canon : Canon (sub_step c acc t) := by
      rw [sub_step_eq]
      rcases h1 : (subtract_internal t c).1 with _ | l <;>
        rcases h2 : (subtract_internal t c).2 with _ | r
      · exact hacc
      · exact canon_insert hacc
          (fun y hy => (hpieces r (Or.inr h2) y hy).symm.imp id id |>.symm)
      · exact canon_insert hacc
          (fun y hy => hpieces l (Or.inl h1) y hy)
      · apply canon_insert (canon_insert hacc
          (fun y hy => hpieces l (Or.inl h1) y hy))
        intro y hy
        rcases mem_insert_internal.mp hy with rfl | hy'
        · right
          exact pieces_sep hsz h1 h2
        · exact hpieces r (Or.inr h2) y hy'
    apply canon_sub_foldl hsz hO' hstep_canon
    intro y hy u hu
    rcases hmem_step y hy with hya | hyp
    · exact hsep y hya u (List.mem_cons_of_mem t hu)
    · have hb := pieces_subset hyp
      have htu : RegSep t u := htO u hu
      left
      unfold RegSep at *
      omega

theorem canon_subtract {s : List Region} (h : Canon s) {b sz : Nat}
    (hsz : 0 < sz) : Canon (subtract s b sz) := by
  rw [subtract_def]
  apply canon_sub_foldl (c := ⟨b, sz⟩) hsz (canon_filter h _) (canon_filter h _)
  intro y hy t ht
  rcases mem_remainder_all.mp hy with ⟨hys, hynt⟩
  rcases mem_intersection_all.mp ht with ⟨hts, htt⟩
  exact canon_sep_or h hys hts (by rintro rfl; exact hynt htt)

end RegionAllocator

namespace RegionAllocator

theorem covers_insert {a : Region} {l : List Region} {x : Nat} :
    covers (insert_internal a l) x ↔ inReg a x ∨ covers l x := by
  unfold covers
  constructor
  · rintro ⟨r, hr, hx⟩
    rcases mem_insert_internal.mp hr with rfl | hr'
    · exact Or.inl hx
    · exact Or.inr ⟨r, hr', hx⟩
  · rintro (hx | ⟨r, hr, hx⟩)
    · exact ⟨a, mem_insert_internal.mpr (Or.inl rfl), hx⟩
    · exact ⟨r, mem_insert_internal.mpr (Or.inr hr), hx⟩

theorem covers_add (s : List Region) (b sz x : Nat) :
    covers (add s b sz) x ↔ covers s x ∨ (b ≤ x ∧ x < b + sz) := by
  rw [add_eq, covers_insert]
  have hin := @inReg_foldl_hull ⟨b, sz⟩
    (intersection_all s ⟨b, sz⟩) ⟨b, sz⟩
    (fun t ht => (mem_intersection_all.mp ht).2)
    (Nat.le_refl _) (Nat.le_refl _) x
  rw [hin]
  have hx : inReg ⟨b, sz⟩ x ↔ (b ≤ x ∧ x < b + sz) := Iff.rfl
  rw [hx]
  constructor
  · rintro ((h | ⟨t, ht, hx⟩) | ⟨r, hr, hx⟩)
    · exact Or.inr h
    · exact Or.inl ⟨t, (mem_intersection_all.mp ht).1, hx⟩
    · exact Or.inl ⟨r, (mem_remainder_all.mp hr).1, hx⟩
  · rintro (⟨r, hr, hx⟩ | h)
    · by_cases ht : touches r ⟨b, sz⟩
      · exact Or.inl (Or.inr ⟨r, mem_intersection_all.mpr ⟨hr, ht⟩, hx⟩)
      · exact Or.inr ⟨r, mem_remainder_all.mpr ⟨hr, ht⟩, hx⟩
    · exact Or.inl (Or.inl h)

theorem covers_subtract (s : List Region) (b sz x : Nat) :
    covers (subtract s b sz) x ↔ covers s x ∧ ¬ (b ≤ x ∧ x < b + sz) := by
  rw [subtract_def]
  have hcx : inReg ⟨b, sz⟩ x ↔ (b ≤ x ∧ x < b + sz) := Iff.rfl
  constructor
  · rintro ⟨r, hr, hx⟩
    rcases mem_sub_foldl.mp hr with hrest | ⟨t, ht, hp⟩
    · rcases mem_remainder_all.mp hrest with ⟨hrs, hrnt⟩
      refine ⟨⟨r, hrs, hx⟩, ?_⟩
      rw [touches_iff] at hrnt
      simp only [Region.last] at hrnt
      omega
    · have hpt := (pieces_inReg t ⟨b, sz⟩ x).mp (by
        rcases hp with hp | hp
        · exact Or.inl ⟨r, hp, hx⟩
        · exact Or.inr ⟨r, hp, hx⟩)
      rcases mem_intersection_all.mp ht with ⟨hts, _⟩
      exact ⟨⟨t, hts, hpt.1⟩, fun hc => hpt.2 (hcx.mpr hc)⟩
  · rintro ⟨⟨r, hrs, hx⟩, hout⟩
    by_cases ht : touches r ⟨b, sz⟩
    · have := (pieces_inReg r ⟨b, sz⟩ x).mpr ⟨hx, fun hc => hout (hcx.mp hc)⟩
      rcases this with ⟨l, hl, hlx⟩ | ⟨rr, hrr, hrx⟩
      · exact ⟨l, mem_sub_foldl.mpr
          (Or.inr ⟨r, mem_intersection_all.mpr ⟨hrs, ht⟩, Or.inl hl⟩), hlx⟩
      · exact ⟨rr, mem_sub_foldl.mpr
          (Or.inr ⟨r, mem_intersection_all.mpr ⟨hrs, ht⟩, Or.inr hrr⟩), hrx⟩
    · exact ⟨r, mem_sub_foldl.mpr
        (Or.inl (mem_remainder_all.mpr ⟨hrs, ht⟩)), hx⟩

end RegionAllocator

/-! ## Call sequences, power of two, size-based allocation scan -/

/-- The subtract calls of an operation have positive size (the add calls
are unconstrained). -/
def SubPos : AllocOp → Prop
  | .addOp _ _ => True
  | .subOp _ sz => 0 < sz

instance decSubPos : (op : AllocOp) → Decidable (SubPos op)
  | .addOp _ _ => isTrue trivial
  | .subOp _ sz => inferInstanceAs (Decidable (0 < sz))

theorem canon_applyOps : ∀ {ops : List AllocOp} {s : List Region}, Canon s →
    (∀ op ∈ ops, SubPos op) → Canon (applyOps s ops)
  | [], _, h, _ => h
  | op :: ops, s, h, hpos => by
    rw [show applyOps s (op :: ops) = applyOps (applyOp s op) ops from rfl]
    apply canon_applyOps _ (fun o ho => hpos o (List.mem_cons_of_mem op ho))
    cases op with
    | addOp b sz => exact RegionAllocator.canon_add h b sz
    | subOp b sz =>
      exact RegionAllocator.canon_subtract h
        (hpos _ (List.mem_cons_self _ _))

namespace RegionAllocator

theorem is_power_of_two_iff (n : Nat) :
    is_power_of_two n = true ↔ ∃ k, n = 2 ^ k := by
  unfold is_power_of_two
  simp only [decide_eq_true_eq]
  constructor
  · rintro ⟨k, _, hk⟩
    exact ⟨k, hk⟩
  · rintro ⟨k, hk⟩
    exact ⟨k, by subst hk; exact Nat.le_of_lt (Nat.lt_two_pow k), hk⟩

/-- The per-region acceptance test of the `allocate_by_size` loop: the
region is not skipped by the size pre-filter and the aligned block fits. -/
def hosts (size alignment : Nat) (r : Region) : Prop :=
  ¬ size > r.size ∧
    r.base ≤ mask_down (r.base + (alignment - 1)) alignment ∧
    mask_down (r.base + (alignment - 1)) alignment + size ≤ r.base + r.size

instance decHosts (size alignment : Nat) (r : Region) :
    Decidable (hosts size alignment r) := by
  unfold hosts; infer_instance

theorem find_by_size_none {size alignment : Nat} :
    ∀ {l : List Region},
      (find_by_size size alignment l = none ↔
        ∀ r ∈ l, ¬ hosts size alignment r)
  | [] => by simp [find_by_size]
  | r :: l => by
    unfold find_by_size
    by_cases h1 : size > r.size
    · rw [if_pos h1, find_by_size_none (l := l)]
      constructor
      · intro h u hu
        rcases List.mem_cons.mp hu with rfl | hu'
        · exact fun hh => hh.1 h1
        · exact h u hu'
      · exact fun h u hu => h u (List.mem_cons_of_mem r hu)
    · rw [if_neg h1]
      by_cases h2 : r.base ≤ mask_down (r.base + (alignment - 1)) alignment ∧
          mask_down (r.base + (alignment - 1)) alignment + size ≤
            r.base + r.size
      · rw [if_pos h2]
        constructor
        · intro h
          exact absurd h (by simp)
        · intro h
          exact absurd ⟨h1, h2.1, h2.2⟩ (h r (List.mem_cons_self r l))
      · rw [if_neg h2, find_by_size_none (l := l)]
        constructor
        · intro h u hu
          rcases List.mem_cons.mp hu with rfl | hu'
          · exact fun hh => h2 ⟨hh.2.1, hh.2.2⟩
          · exact h u hu'
        · exact fun h u hu => h u (List.mem_cons_of_mem r hu)

theorem find_by_size_some {size alignment : Nat} :
    ∀ {l : List Region} {b out : Nat}, List.Pairwise Region.lt l →
      find_by_size size alignment l = some (b, out) →
      out = size ∧ ∃ r ∈ l, hosts size alignment r ∧
        b = mask_down (r.base + (alignment - 1)) alignment ∧
        ∀ r2 ∈ l, hosts size alignment r2 → r = r2 ∨ Region.lt r r2
  | [], b, out, _, h => by simp [find_by_size] at h
  | r :: l, b, out, hsort, h => by
    rcases List.pairwise_cons.mp hsort with ⟨hr, hsort'⟩
    unfold find_by_size at h
    by_cases h1 : size > r.size
    · rw [if_pos h1] at h
      rcases find_by_size_some hsort' h with ⟨hout, u, hu, hh, hb, hmin⟩
      refine ⟨hout, u, List.mem_cons_of_mem r hu, hh, hb, ?_⟩
      intro r2 hr2 hh2
      rcases List.mem_cons.mp hr2 with rfl | hr2'
      · exact absurd h1 hh2.1
      · exact hmin r2 hr2' hh2
    · rw [if_neg h1] at h
      by_cases h2 : r.base ≤ mask_down (r.base + (alignment - 1)) alignment ∧
          mask_down (r.base + (alignment - 1)) alignment + size ≤
            r.base + r.size
      · rw [if_pos h2] at h
        rcases Option.some.injEq _ _ ▸ h with h'
        have hb : b = mask_down (r.base + (alignment - 1)) alignment ∧
            out = size := by
          have := Prod.mk.injEq _ _ _ _ ▸ (Option.some.inj h)
          exact ⟨this.1.symm, this.2.symm⟩
        refine ⟨hb.2, r, List.mem_cons_self r l, ⟨h1, h2.1, h2.2⟩, hb.1, ?_⟩
        intro r2 hr2 _
        rcases List.mem_cons.mp hr2 with rfl | hr2'
        · exact Or.inl rfl
        · exact Or.inr (hr r2 hr2')
      · rw [if_neg h2] at h
        rcases find_by_size_some hsort' h with ⟨hout, u, hu, hh, hb, hmin⟩
        refine ⟨hout, u, List.mem_cons_of_mem r hu, hh, hb, ?_⟩
        intro r2 hr2 hh2
        rcases List.mem_cons.mp hr2 with rfl | hr2'
        · exact absurd ⟨hh2.2.1, hh2.2.2⟩ h2
        · exact hmin r2 hr2' hh2

end RegionAllocator

/-! ## More auxiliary lemmas -/

namespace RegionAllocator

theorem foldl_hull_base_le_mem : ∀ {O : List Region} {acc : Region},
    ∀ t ∈ O, (O.foldl hull acc).base ≤ t.base
  | t0 :: O, acc, t, ht => by
    rw [List.foldl_cons]
    rcases List.mem_cons.mp ht with rfl | ht'
    · exact Nat.le_trans (foldl_hull_base_le (O := O))
        (by rw [hull_base]; omega)
    · exact foldl_hull_base_le_mem t ht'

theorem foldl_hull_last_ge_mem : ∀ {O : List Region} {acc : Region},
    ∀ t ∈ O, t.last ≤ (O.foldl hull acc).last
  | t0 :: O, acc, t, ht => by
    rw [List.foldl_cons]
    rcases List.mem_cons.mp ht with rfl | ht'
    · exact Nat.le_trans (by rw [hull_last]; omega)
        (foldl_hull_last_ge (O := O))
    · exact foldl_hull_last_ge_mem t ht'

theorem filter_insert_internal_neg {p : Region → Bool} {a : Region}
    (ha : p a = false) :
    ∀ {l : List Region},
      List.filter p (insert_internal a l) = List.filter p l
  | [] => by simp [insert_internal, ha]
  | b :: l => by
    simp only [insert_internal]
    by_cases h1 : Region.lt a b
    · rw [if_pos h1]
      simp [List.filter_cons, ha]
    · rw [if_neg h1]
      by_cases h2 : a = b
      · rw [if_pos h2]
      · rw [if_neg h2]
        simp only [List.filter_cons, filter_insert_internal_neg ha (l := l)]

theorem filter_insert_internal_pos {p : Region → Bool} {a : Region}
    (ha : p a = true) :
    ∀ {l : List Region}, (∀ x ∈ l, p x = false) →
      List.filter p (insert_internal a l) = [a]
  | [], _ => by simp [insert_internal, ha]
  | b :: l, hl => by
    have hb : p b = false := hl b (List.mem_cons_self b l)
    simp only [insert_internal]
    by_cases h1 : Region.lt a b
    · rw [if_pos h1]
      simp [List.filter_cons, ha, hb]
      intro x hx
      simp [hl x (List.mem_cons_of_mem b hx)]
    · rw [if_neg h1]
      by_cases h2 : a = b
      · exact absurd (h2 ▸ ha) (by simp [hb])
      · rw [if_neg h2]
        rw [List.filter_cons_of_neg (by simp [hb])]
        exact filter_insert_internal_pos ha
          (fun x hx => hl x (List.mem_cons_of_mem b hx))

theorem subtract_internal_eq (t c : Region) :
    subtract_internal t c =
      ((if c.base > t.base then
          some (⟨t.base, min t.size (c.base - t.base)⟩ : Region)
        else none),
       (if c.last < t.last then
          some (⟨t.last - min t.size (t.last - c.last),
                 min t.size (t.last - c.last)⟩ : Region)
        else none)) := rfl

end RegionAllocator

/-- On a `w`-bit machine word, for a power-of-two alignment `2 ^ k`, the
source expression `x & !(2 ^ k - 1)` is `x &&& (2 ^ w - 2 ^ k)`, which for
every in-range `x` rounds `x` down to a multiple of `2 ^ k`: this is the
`mask_down` used in the embedding of `allocate_by_size`. -/
theorem land_complement_mask (k w x : Nat) (hk : k ≤ w) (hx : x < 2 ^ w) :
    x &&& (2 ^ w - 2 ^ k) = RegionAllocator.mask_down x (2 ^ k) := by
  have hmask : 2 ^ w - 2 ^ k = (2 ^ (w - k) - 1) <<< k := by
    rw [Nat.shiftLeft_eq, Nat.sub_mul, one_mul, ← Nat.pow_add,
      Nat.sub_add_cancel hk]
  have hrhs : RegionAllocator.mask_down x (2 ^ k) = (x >>> k) <<< k := by
    unfold RegionAllocator.mask_down
    rw [Nat.shiftLeft_eq, Nat.shiftRight_eq_div_pow, Nat.mul_comm]
    have := Nat.div_add_mod x (2 ^ k)
    omega
  rw [hmask, hrhs]
  apply Nat.eq_of_testBit_eq
  intro i
  rw [Nat.testBit_land, Nat.testBit_shiftLeft, Nat.testBit_shiftLeft,
    Nat.testBit_two_pow_sub_one, Nat.testBit_shiftRight]
  by_cases hik : k ≤ i
  · have hki : k + (i - k) = i := by omega
    rw [hki]
    simp only [ge_iff_le, hik, decide_True, Bool.true_and]
    by_cases hiw : i < w
    · have h1 : i - k < w - k := by omega
      simp [h1]
    · have h1 : ¬ (i - k < w - k) := by omega
      have h2 : x.testBit i = false :=
        Nat.testBit_lt_two_pow
          (Nat.lt_of_lt_of_le hx (Nat.pow_le_pow_right (by omega) (by omega)))
      simp [h1, h2]
  · simp [hik]

/-! ## Round trip: add then subtract of the same range -/

namespace RegionAllocator

theorem round_trip_of_pieces {s : List Region} {b sz : Nat} {M : Region}
    (hcanon : Canon s) (hsz : 0 < sz)
    (hMdef : M = List.foldl hull ⟨b, sz⟩ (intersection_all s ⟨b, sz⟩))
    (hpieces : ∀ x : Region,
      ((subtract_internal M ⟨b, sz⟩).1 = some x ∨
       (subtract_internal M ⟨b, sz⟩).2 = some x) ↔
        x ∈ intersection_all s ⟨b, sz⟩) :
    subtract (add s b sz) b sz = s := by
  have hMb_le : M.base ≤ b := by
    rw [hMdef]
    exact @foldl_hull_base_le (intersection_all s ⟨b, sz⟩) ⟨b, sz⟩
  have hMl_ge : b + sz ≤ M.last := by
    rw [hMdef]
    exact @foldl_hull_last_ge (intersection_all s ⟨b, sz⟩) ⟨b, sz⟩
  have hadd : add s b sz = insert_internal M (remainder_all s ⟨b, sz⟩) := by
    rw [hMdef]; exact add_eq s b sz
  have hMtouch : touches M ⟨b, sz⟩ := by
    rw [touches_iff]
    simp only [Region.last] at *
    omega
  have hO2 : intersection_all
      (insert_internal M (remainder_all s ⟨b, sz⟩)) ⟨b, sz⟩ = [M] := by
    unfold intersection_all
    apply filter_insert_internal_pos (by simp [hMtouch])
    intro x hx
    simp [(mem_remainder_all.mp hx).2]
  have hrest2 : remainder_all
      (insert_internal M (remainder_all s ⟨b, sz⟩)) ⟨b, sz⟩ =
        remainder_all s ⟨b, sz⟩ := by
    unfold remainder_all
    rw [filter_insert_internal_neg (by simp [hMtouch])]
    apply List.filter_eq_self.mpr
    intro x hx
    exact (List.mem_filter.mp hx).2
  have hsub_canon : Canon (subtract (add s b sz) b sz) :=
    canon_subtract (canon_add hcanon b sz) hsz
  apply sorted_eq_of_mem_iff (canon_pairwise_lt hsub_canon)
    (canon_pairwise_lt hcanon)
  intro x
  rw [hadd, subtract_def, hO2, hrest2]
  rw [show List.foldl (sub_step ⟨b, sz⟩) (remainder_all s ⟨b, sz⟩) [M] =
      sub_step ⟨b, sz⟩ (remainder_all s ⟨b, sz⟩) M from rfl]
  rw [mem_sub_step, hpieces x]
  rw [mem_partition (s := s) (c := (⟨b, sz⟩ : Region)) (x := x)]
  tauto

end RegionAllocator


namespace RegionAllocator

theorem add_sub_round_trip {s : List Region} {b sz : Nat} (hcanon : Canon s)
    (hsz : 0 < sz)
    (hdisj : ∀ r ∈ s, r.size = 0 ∨ r.base + r.size ≤ b ∨ b + sz ≤ r.base)
    (hzero : ∀ r ∈ s, r.size = 0 → r.base < b ∨ b + sz < r.base) :
    subtract (add s b sz) b sz = s := by
  have hcanonO : Canon (intersection_all s ⟨b, sz⟩) := canon_filter hcanon _
  have hclass : ∀ t ∈ intersection_all s ⟨b, sz⟩,
      (t.base + t.size = b ∧ 0 < t.size) ∨ (t.base = b + sz ∧ 0 < t.size) := by
    intro t ht
    rcases mem_intersection_all.mp ht with ⟨hts, htt⟩
    rw [touches_iff] at htt
    simp only [Region.last] at htt
    rcases Nat.eq_zero_or_pos t.size with h0 | hpos
    · have h1 := hzero t hts h0
      omega
    · rcases hdisj t hts with h0 | h1 | h1 <;> omega
  have huniqL : ∀ t1 ∈ intersection_all s ⟨b, sz⟩,
      ∀ t2 ∈ intersection_all s ⟨b, sz⟩,
      t1.base + t1.size = b → t2.base + t2.size = b → t1 = t2 := by
    intro t1 h1 t2 h2 hb1 hb2
    by_contra hne
    rcases canon_sep_or hcanonO h1 h2 hne with h | h <;>
      (simp only [RegSep, Region.last] at h; omega)
  have huniqR : ∀ t1 ∈ intersection_all s ⟨b, sz⟩,
      ∀ t2 ∈ intersection_all s ⟨b, sz⟩,
      t1.base = b + sz → t2.base = b + sz → t1 = t2 := by
    intro t1 h1 t2 h2 hb1 hb2
    by_contra hne
    rcases canon_sep_or hcanonO h1 h2 hne with h | h <;>
      (simp only [RegSep, Region.last] at h; omega)
  obtain ⟨M, hMdef⟩ :
      ∃ M, M = List.foldl hull ⟨b, sz⟩ (intersection_all s ⟨b, sz⟩) :=
    ⟨_, rfl⟩
  have hMb_le : M.base ≤ b := by
    rw [hMdef]
    exact @foldl_hull_base_le (intersection_all s ⟨b, sz⟩) ⟨b, sz⟩
  have hMl_ge : b + sz ≤ M.last := by
    rw [hMdef]
    exact @foldl_hull_last_ge (intersection_all s ⟨b, sz⟩) ⟨b, sz⟩
  have hMb_mem : M.base = b ∨
      ∃ t ∈ intersection_all s ⟨b, sz⟩, M.base = t.base := by
    rw [hMdef]
    exact @foldl_hull_base_mem (intersection_all s ⟨b, sz⟩) ⟨b, sz⟩
  have hMl_mem : M.last = b + sz ∨
      ∃ t ∈ intersection_all s ⟨b, sz⟩, M.last = t.last := by
    rw [hMdef]
    exact @foldl_hull_last_mem (intersection_all s ⟨b, sz⟩) ⟨b, sz⟩
  have hMb_le_mem : ∀ t ∈ intersection_all s ⟨b, sz⟩, M.base ≤ t.base := by
    rw [hMdef]
    exact fun t ht => foldl_hull_base_le_mem t ht
  have hMl_ge_mem : ∀ t ∈ intersection_all s ⟨b, sz⟩, t.last ≤ M.last := by
    rw [hMdef]
    exact fun t ht => foldl_hull_last_ge_mem t ht
  have hMsize : M.last = M.base + M.size := rfl
  refine round_trip_of_pieces hcanon hsz hMdef ?_
  by_cases hL : ∃ t ∈ intersection_all s ⟨b, sz⟩, t.base + t.size = b
  · rcases hL with ⟨L, hLm, hLb⟩
    have hLpos : 0 < L.size := by
      rcases hclass L hLm with h | h <;> omega
    have hMbase : M.base = L.base := by
      rcases hMb_mem with h | ⟨t, htm, h⟩
      · have := hMb_le_mem L hLm
        omega
      · rcases hclass t htm with hk | hk
        · rw [h, huniqL t htm L hLm hk.1 hLb]
        · omega
    have hp1 : (subtract_internal M ⟨b, sz⟩).1 = some L := by
      rw [subtract_internal_eq]
      simp only [Region.last]
      rw [if_pos (show b > M.base by omega), Option.some.injEq]
      rw [show L = (⟨L.base, L.size⟩ : Region) from rfl, Region.mk.injEq]
      exact ⟨by omega, by omega⟩
    by_cases hR : ∃ t ∈ intersection_all s ⟨b, sz⟩, t.base = b + sz
    · rcases hR with ⟨R, hRm, hRb⟩
      have hRpos : 0 < R.size := by
        rcases hclass R hRm with h | h <;> omega
      have hRlast : R.last = R.base + R.size := rfl
      have hMlast : M.last = R.base + R.size := by
        rcases hMl_mem with h | ⟨t, htm, h⟩
        · have h2 := hMl_ge_mem R hRm
          rw [hRlast] at h2
          omega
        · rcases hclass t htm with hk | hk
          · simp only [Region.last] at h
            omega
          · rw [h, huniqR t htm R hRm hk.1 hRb]
            exact hRlast
      have hp2 : (subtract_internal M ⟨b, sz⟩).2 = some R := by
        rw [subtract_internal_eq]
        simp only [Region.last]
        rw [if_pos (show b + sz < M.base + M.size by omega),
          Option.some.injEq]
        rw [show R = (⟨R.base, R.size⟩ : Region) from rfl, Region.mk.injEq]
        exact ⟨by omega, by omega⟩
      intro x
      rw [hp1, hp2]
      constructor
      · rintro (hx | hx)
        · obtain rfl := Option.some.inj hx
          exact hLm
        · obtain rfl := Option.some.inj hx
          exact hRm
      · intro hx
        rcases hclass x hx with hk | hk
        · exact Or.inl (congrArg some (huniqL L hLm x hx hLb hk.1))
        · exact Or.inr (congrArg some (huniqR R hRm x hx hRb hk.1))
    · have hMlast : M.last = b + sz := by
        rcases hMl_mem with h | ⟨t, htm, h⟩
        · exact h
        · rcases hclass t htm with hk | hk
          · simp only [Region.last] at h
            omega
          · exact absurd ⟨t, htm, hk.1⟩ hR
      have hp2 : (subtract_internal M ⟨b, sz⟩).2 = none := by
        rw [subtract_internal_eq]
        simp only [Region.last]
        rw [if_neg (show ¬ (b + sz < M.base + M.size) by omega)]
      intro x
      rw [hp1, hp2]
      constructor
      · rintro (hx | hx)
        · obtain rfl := Option.some.inj hx
          exact hLm
        · exact absurd hx (by simp)
      · intro hx
        rcases hclass x hx with hk | hk
        · exact Or.inl (congrArg some (huniqL L hLm x hx hLb hk.1))
        · exact absurd ⟨x, hx, hk.1⟩ hR
  · have hMbase : M.base = b := by
      rcases hMb_mem with h | ⟨t, htm, h⟩
      · exact h
      · rcases hclass t htm with hk | hk
        · exact absurd ⟨t, htm, hk.1⟩ hL
        · omega
    have hp1 : (subtract_internal M ⟨b, sz⟩).1 = none := by
      rw [subtract_internal_eq]
      simp only [Region.last]
      rw [if_neg (show ¬ (b > M.base) by omega)]
    by_cases hR : ∃ t ∈ intersection_all s ⟨b, sz⟩, t.base = b + sz
    · rcases hR with ⟨R, hRm, hRb⟩
      have hRpos : 0 < R.size := by
        rcases hclass R hRm with h | h <;> omega
      have hRlast : R.last = R.base + R.size := rfl
      have hMlast : M.last = R.base + R.size := by
        rcases hMl_mem with h | ⟨t, htm, h⟩
        · have h2 := hMl_ge_mem R hRm
          rw [hRlast] at h2
          omega
        · rcases hclass t htm with hk | hk
          · exact absurd ⟨t, htm, hk.1⟩ hL
          · rw [h, huniqR t htm R hRm hk.1 hRb]
            exact hRlast
      have hp2 : (subtract_internal M ⟨b, sz⟩).2 = some R := by
        rw [subtract_internal_eq]
        simp only [Region.last]
        rw [if_pos (show b + sz < M.base + M.size by omega),
          Option.some.injEq]
        rw [show R = (⟨R.base, R.size⟩ : Region) from rfl, Region.mk.injEq]
        exact ⟨by omega, by omega⟩
      intro x
      rw [hp1, hp2]
      constructor
      · rintro (hx | hx)
        · exact absurd hx (by simp)
        · obtain rfl := Option.some.inj hx
          exact hRm
      · intro hx
        rcases hclass x hx with hk | hk
        · exact absurd ⟨x, hx, hk.1⟩ hL
        · exact Or.inr (congrArg some (huniqR R hRm x hx hRb hk.1))
    · have hMlast : M.last = b + sz := by
        rcases hMl_mem with h | ⟨t, htm, h⟩
        · exact h
        · rcases hclass t htm with hk | hk
          · exact absurd ⟨t, htm, hk.1⟩ hL
          · exact absurd ⟨t, htm, hk.1⟩ hR
      have hp2 : (subtract_internal M ⟨b, sz⟩).2 = none := by
        rw [subtract_internal_eq]
        simp only [Region.last]
        rw [if_neg (show ¬ (b + sz < M.base + M.size) by omega)]
      intro x
      rw [hp1, hp2]
      constructor
      · rintro (hx | hx) <;> exact absurd hx (by simp)
      · intro hx
        rcases hclass x hx with hk | hk
        · exact absurd ⟨x, hx, hk.1⟩ hL
        · exact absurd ⟨x, hx, hk.1⟩ hR

end RegionAllocator

/-! ## Allocation helpers -/

namespace RegionAllocator

theorem allocate_by_addr_spec (s : List Region) (b sz : Nat) :
    ((allocate_by_addr s b sz).1 = true ↔
      ∃ r ∈ s, r.base ≤ b ∧ b + sz ≤ r.base + r.size) ∧
    ((allocate_by_addr s b sz).1 = true →
      (allocate_by_addr s b sz).2 = subtract s b sz) ∧
    ((allocate_by_addr s b sz).1 = false →
      (allocate_by_addr s b sz).2 = s) := by
  unfold allocate_by_addr
  by_cases hany : s.any
      (fun r => decide (r.base ≤ b) && decide (b + sz ≤ r.base + r.size)) = true
  · rw [if_pos hany]
    refine ⟨?_, fun _ => rfl, fun hf => absurd hf (by simp)⟩
    constructor
    · intro _
      rcases List.any_eq_true.mp hany with ⟨r, hr, hp⟩
      simp only [Bool.and_eq_true, decide_eq_true_eq] at hp
      exact ⟨r, hr, hp⟩
    · intro _
      rfl
  · rw [if_neg hany]
    refine ⟨?_, fun ht => absurd ht (by simp), fun _ => rfl⟩
    constructor
    · intro ht
      exact absurd ht (by simp)
    · rintro ⟨r, hr, h1, h2⟩
      exact absurd (List.any_eq_true.mpr ⟨r, hr, by simp [h1, h2]⟩) hany

theorem allocate_by_size_fst (s : List Region) (size alignment : Nat) :
    (allocate_by_size s size alignment).1 =
      if is_power_of_two alignment = true
      then find_by_size size alignment s else none := by
  by_cases hp : is_power_of_two alignment = true
  · rw [if_pos hp]
    unfold allocate_by_size
    rw [hp]
    rcases hf : find_by_size size alignment s with _ | ⟨bb, oo⟩ <;> simp [hf]
  · rw [if_neg hp]
    unfold allocate_by_size
    rw [Bool.not_eq_true] at hp
    rw [hp]
    rfl

theorem allocate_by_size_snd_none (s : List Region) (size alignment : Nat)
    (h : (allocate_by_size s size alignment).1 = none) :
    (allocate_by_size s size alignment).2 = s := by
  by_cases hp : is_power_of_two alignment = true
  · unfold allocate_by_size at h ⊢
    rw [hp] at h ⊢
    rcases hf : find_by_size size alignment s with _ | ⟨bb, oo⟩
    · simp [hf]
    · simp [hf] at h
  · unfold allocate_by_size
    rw [Bool.not_eq_true] at hp
    rw [hp]
    rfl

theorem allocate_by_size_some {s : List Region} {size alignment bb oo : Nat}
    {st2 : List Region}
    (h : allocate_by_size s size alignment = (some (bb, oo), st2)) :
    find_by_size size alignment s = some (bb, oo) ∧
      st2 = subtract s bb oo := by
  have h1 : (allocate_by_size s size alignment).1 = some (bb, oo) := by
    rw [h]
  have hp : is_power_of_two alignment = true := by
    by_contra hp
    rw [Bool.not_eq_true] at hp
    rw [allocate_by_size_fst, if_neg (by simp [hp])] at h1
    exact Option.noConfusion h1
  have hf : find_by_size size alignment s = some (bb, oo) := by
    rw [allocate_by_size_fst, if_pos hp] at h1
    exact h1
  refine ⟨hf, ?_⟩
  have h2 : (allocate_by_size s size alignment).2 = st2 := by
    rw [h]
  unfold allocate_by_size at h2
  rw [hp] at h2
  simp only [hf, Bool.not_true, Bool.false_eq_true, if_false] at h2
  exact h2.symm

theorem add_no_touch {s : List Region} {b sz : Nat}
    (h : ∀ r ∈ s, ¬ touches r ⟨b, sz⟩) :
    add s b sz = insert_internal ⟨b, sz⟩ s := by
  rw [add_eq]
  have hO : intersection_all s ⟨b, sz⟩ = [] := by
    unfold intersection_all
    apply List.filter_eq_nil_iff.mpr
    intro r hr
    simp [h r hr]
  have hrest : remainder_all s ⟨b, sz⟩ = s := by
    unfold remainder_all
    apply List.filter_eq_self.mpr
    intro r hr
    simp [h r hr]
  rw [hO, hrest]
  rfl

end RegionAllocator

/-! ## The claims -/

/-- C1 (counterexample): starting from `new()`, the sequence
`add(0,10); subtract(5,0)` leaves the stored set `{(0,5), (5,5)}`, whose
two regions are adjacent (`0+5 = 5`), so the claimed invariant fails for a
zero-size subtract call. -/
theorem C1_cex_zero_size_subtract :
    applyOps RegionAllocator.new [AllocOp.addOp 0 10, AllocOp.subOp 5 0] =
      [⟨0, 5⟩, ⟨5, 5⟩] ∧
    ¬ SeparatedP
      (applyOps RegionAllocator.new
        [AllocOp.addOp 0 10, AllocOp.subOp 5 0]) := by
  decide

/-- C1 (amended): after any sequence of `add`/`subtract` calls starting
from `new()` in which every `subtract` call has positive size, no two
distinct stored regions overlap or are adjacent: for all stored `r1 ≠ r2`,
`r1.base + r1.size < r2.base` or `r2.base + r2.size < r1.base`, strictly.
(The original claim, with zero-size subtracts allowed, is refuted by
`C1_cex_zero_size_subtract`.) -/
theorem C1_invariant_positive_subtract (ops : List AllocOp)
    (hpos : ∀ op ∈ ops, SubPos op) :
    SeparatedP (applyOps RegionAllocator.new ops) :=
  canon_separatedP (canon_applyOps List.Pairwise.nil hpos)

/-- C1 (witness): the amended invariant theorem applied to a concrete
sequence of calls. -/
theorem C1_invariant_positive_subtract_witness :
    (∀ op ∈ [AllocOp.addOp 0 10, AllocOp.subOp 2 3, AllocOp.addOp 20 5],
      SubPos op) ∧
    SeparatedP (applyOps RegionAllocator.new
      [AllocOp.addOp 0 10, AllocOp.subOp 2 3, AllocOp.addOp 20 5]) :=
  ⟨by decide, C1_invariant_positive_subtract _ (by decide)⟩

/-- C2: for every state and every `b`, `s`, the half-open coverage after
`add(b, s)` is the prior coverage together with `[b, b+s)`, pointwise at
every address `x`. -/
theorem C2_add_union_coverage (s : List Region) (b sz x : Nat) :
    covers (RegionAllocator.add s b sz) x ↔
      covers s x ∨ (b ≤ x ∧ x < b + sz) :=
  RegionAllocator.covers_add s b sz x

/-- C3 (counterexample): with stored set `{(0,10)}` (reached by
`add(0,10)` from `new()`), after `subtract(5,5)` the query
`check_point(5)` still returns `true` although `5 ∈ [5, 10)` — the
source's closed-range test counts the right endpoint of the left
remainder `(0,5)` — and `check_point(10)` changes from `true` to `false`
although `10 ∉ [5, 10)`. -/
theorem C3_cex_check_point_boundary :
    RegionAllocator.check_point
      (RegionAllocator.subtract
        (RegionAllocator.add RegionAllocator.new 0 10) 5 5) 5 = true ∧
    (5 ≤ 5 ∧ 5 < 5 + 5) ∧
    RegionAllocator.check_point
      (RegionAllocator.add RegionAllocator.new 0 10) 10 = true ∧
    RegionAllocator.check_point
      (RegionAllocator.subtract
        (RegionAllocator.add RegionAllocator.new 0 10) 5 5) 10 = false := by
  decide

/-- C3 (amended): after `subtract(b, s)`, no stored region contains any
`x ∈ [b, b+s)` in the half-open sense, and half-open coverage of every
address outside `[b, b+s)` is unchanged; equivalently, coverage after the
call is coverage before minus `[b, b+s)`.  (The original claim, phrased
with `check_point`, fails at the boundaries because `check_point` tests
the closed range; see `C3_cex_check_point_boundary`.) -/
theorem C3_subtract_halfopen_coverage (s : List Region) (b sz x : Nat) :
    covers (RegionAllocator.subtract s b sz) x ↔
      covers s x ∧ ¬ (b ≤ x ∧ x < b + sz) :=
  RegionAllocator.covers_subtract s b sz x

/-- C4: `check_point(addr)` returns `true` iff some stored region `r`
satisfies the closed-range test `r.base ≤ addr ≤ r.base + r.size`,
inclusive at both endpoints. -/
theorem C4_check_point_closed_range (s : List Region) (addr : Nat) :
    RegionAllocator.check_point s addr = true ↔
      ∃ r ∈ s, r.base ≤ addr ∧ addr ≤ r.base + r.size := by
  unfold RegionAllocator.check_point
  simp [List.any_eq_true]

/-- C5: on a sorted state (the `BTreeSet` representation invariant), a
successful `allocate_by_size(s, a) = Some((b, sz))` returns `sz = s`,
takes `b` as the aligned base of the least region (in the `(base, size)`
order) that passes the size pre-filter and can host the aligned block,
and subtracts exactly `[b, b+s)`. -/
theorem C5_allocate_by_size_success {s : List Region}
    {size alignment bb oo : Nat} {st2 : List Region}
    (hsort : List.Pairwise Region.lt s)
    (h : RegionAllocator.allocate_by_size s size alignment =
      (some (bb, oo), st2)) :
    oo = size ∧
    st2 = RegionAllocator.subtract s bb size ∧
    ∃ r ∈ s, RegionAllocator.hosts size alignment r ∧
      bb = RegionAllocator.mask_down (r.base + (alignment - 1)) alignment ∧
      ∀ r2 ∈ s, RegionAllocator.hosts size alignment r2 →
        r = r2 ∨ Region.lt r r2 := by
  rcases RegionAllocator.allocate_by_size_some h with ⟨hf, hst⟩
  rcases RegionAllocator.find_by_size_some hsort hf with
    ⟨hout, r, hr, hh, hb, hmin⟩
  exact ⟨hout, by rw [hst, hout], r, hr, hh, hb, hmin⟩

/-- C5 (witness): the success theorem applied to the spec's concrete
scenario, a region covering `[20, 110)` with `allocate_by_size(12, 8)`
returning `(24, 12)`. -/
theorem C5_allocate_by_size_success_witness :
    List.Pairwise Region.lt [(⟨20, 90⟩ : Region)] ∧
    RegionAllocator.allocate_by_size [(⟨20, 90⟩ : Region)] 12 8 =
      (some (24, 12), [(⟨20, 4⟩ : Region), ⟨36, 74⟩]) ∧
    (12 = 12 ∧
      [(⟨20, 4⟩ : Region), ⟨36, 74⟩] =
        RegionAllocator.subtract [(⟨20, 90⟩ : Region)] 24 12 ∧
      ∃ r ∈ [(⟨20, 90⟩ : Region)], RegionAllocator.hosts 12 8 r ∧
        24 = RegionAllocator.mask_down (r.base + (8 - 1)) 8 ∧
        ∀ r2 ∈ [(⟨20, 90⟩ : Region)], RegionAllocator.hosts 12 8 r2 →
          r = r2 ∨ Region.lt r r2) :=
  ⟨by decide, by decide,
    C5_allocate_by_size_success (by decide) (by decide)⟩

/-- C6: `allocate_by_addr(b, s)` returns `true` iff some stored region
fully contains `[b, b+s)`; on success the exact range is subtracted, and
on failure no stored region fully contains the range. -/
theorem C6_allocate_by_addr_contract (s : List Region) (b sz : Nat) :
    ((RegionAllocator.allocate_by_addr s b sz).1 = true ↔
      ∃ r ∈ s, r.base ≤ b ∧ b + sz ≤ r.base + r.size) ∧
    ((RegionAllocator.allocate_by_addr s b sz).1 = true →
      (RegionAllocator.allocate_by_addr s b sz).2 =
        RegionAllocator.subtract s b sz) ∧
    ((RegionAllocator.allocate_by_addr s b sz).1 = false →
      ¬ ∃ r ∈ s, r.base ≤ b ∧ b + sz ≤ r.base + r.size) := by
  rcases RegionAllocator.allocate_by_addr_spec s b sz with ⟨h1, h2, _⟩
  refine ⟨h1, h2, ?_⟩
  intro hf hex
  have ht := h1.mpr hex
  rw [hf] at ht
  exact Bool.noConfusion ht

/-- C6 (witness): the contract applied to the state `{(0,10)}` and the
request `[2, 5)`, which succeeds and subtracts the range. -/
theorem C6_allocate_by_addr_contract_witness :
    (RegionAllocator.allocate_by_addr [(⟨0, 10⟩ : Region)] 2 3).1 = true ∧
    (RegionAllocator.allocate_by_addr [(⟨0, 10⟩ : Region)] 2 3).2 =
      RegionAllocator.subtract [(⟨0, 10⟩ : Region)] 2 3 := by
  have h := C6_allocate_by_addr_contract [(⟨0, 10⟩ : Region)] 2 3
  have ht := h.1.mpr ⟨⟨0, 10⟩, by decide, by decide, by decide⟩
  exact ⟨ht, h.2.1 ht⟩

/-- C7 (counterexample): the zero-size stored region `(5,0)` — reachable
as `add(5,0)` from `new()` — is half-open disjoint from `[5, 8)` (its own
half-open interval is empty), yet `add(5,3)` absorbs it and the following
`subtract(5,3)` leaves the empty set, not `{(5,0)}`. -/
theorem C7_cex_zero_size_region :
    RegionAllocator.add RegionAllocator.new 5 0 = [(⟨5, 0⟩ : Region)] ∧
    (⟨5, 0⟩ : Region).size = 0 ∧
    RegionAllocator.subtract
      (RegionAllocator.add
        (RegionAllocator.add RegionAllocator.new 5 0) 5 3) 5 3 =
      ([] : List Region) ∧
    ([] : List Region) ≠ [(⟨5, 0⟩ : Region)] := by
  decide

/-- C7 (amended): on a state satisfying the pairwise-separation invariant
(`Canon`, as every state reachable by positive-size calls is), if
`s > 0`, every stored region is half-open disjoint from `[b, b+s)`
(`r.size = 0`, or `r.base + r.size ≤ b`, or `b + s ≤ r.base`), and no
zero-size stored region has its base inside the closed range `[b, b+s]`,
then `add(b, s)` followed by `subtract(b, s)` restores the exact prior
list of stored regions.  (The original claim, which allowed zero-size
regions based inside the range — and `s = 0` — is refuted by
`C7_cex_zero_size_region`.) -/
theorem C7_round_trip_amended {s : List Region} {b sz : Nat}
    (hcanon : Canon s) (hsz : 0 < sz)
    (hdisj : ∀ r ∈ s, r.size = 0 ∨ r.base + r.size ≤ b ∨ b + sz ≤ r.base)
    (hzero : ∀ r ∈ s, r.size = 0 → r.base < b ∨ b + sz < r.base) :
    RegionAllocator.subtract (RegionAllocator.add s b sz) b sz = s :=
  RegionAllocator.add_sub_round_trip hcanon hsz hdisj hzero

/-- C7 (witness): the amended round trip applied to the state `{(0,5)}`
with the adjacent range `[5, 7)`: the add merges to `(0,7)` and the
subtract splits `(0,5)` back off. -/
theorem C7_round_trip_amended_witness :
    Canon [(⟨0, 5⟩ : Region)] ∧ 0 < 2 ∧
    (∀ r ∈ [(⟨0, 5⟩ : Region)],
      r.size = 0 ∨ r.base + r.size ≤ 5 ∨ 5 + 2 ≤ r.base) ∧
    (∀ r ∈ [(⟨0, 5⟩ : Region)],
      r.size = 0 → r.base < 5 ∨ 5 + 2 < r.base) ∧
    RegionAllocator.subtract
      (RegionAllocator.add [(⟨0, 5⟩ : Region)] 5 2) 5 2 =
      [(⟨0, 5⟩ : Region)] :=
  ⟨by decide, by decide, by decide, by decide,
    C7_round_trip_amended (by decide) (by decide) (by decide) (by decide)⟩

/-- C8: `allocate_by_size(s, a)` returns no match iff `a` is not a power
of two or no stored region passes the size pre-filter and hosts its
aligned block; in particular `a = 0` and `a = 9` are rejected with the
state untouched. -/
theorem C8_allocate_by_size_failure (s : List Region)
    (size alignment : Nat) :
    ((RegionAllocator.allocate_by_size s size alignment).1 = none ↔
      (¬ ∃ k, alignment = 2 ^ k) ∨
        ∀ r ∈ s, ¬ RegionAllocator.hosts size alignment r) ∧
    RegionAllocator.allocate_by_size s size 0 = (none, s) ∧
    RegionAllocator.allocate_by_size s size 9 = (none, s) := by
  refine ⟨?_, ?_, ?_⟩
  · rw [RegionAllocator.allocate_by_size_fst]
    by_cases hp : RegionAllocator.is_power_of_two alignment = true
    · rw [if_pos hp]
      have hpow := (RegionAllocator.is_power_of_two_iff alignment).mp hp
      rw [RegionAllocator.find_by_size_none]
      constructor
      · exact fun h => Or.inr h
      · rintro (hk | hall)
        · exact absurd hpow hk
        · exact hall
    · rw [if_neg hp]
      constructor
      · intro _
        left
        intro hex
        exact hp ((RegionAllocator.is_power_of_two_iff alignment).mpr hex)
      · intro _
        rfl
  · have h0 : RegionAllocator.is_power_of_two 0 = false := by decide
    unfold RegionAllocator.allocate_by_size
    rw [h0]
    rfl
  · have h9 : RegionAllocator.is_power_of_two 9 = false := by decide
    unfold RegionAllocator.allocate_by_size
    rw [h9]
    rfl

/-- C9: a failed `allocate_by_addr` or `allocate_by_size` call leaves the
stored region list exactly as it was. -/
theorem C9_failed_allocation_preserves_state
    (s : List Region) (b sz alignment : Nat) :
    ((RegionAllocator.allocate_by_addr s b sz).1 = false →
      (RegionAllocator.allocate_by_addr s b sz).2 = s) ∧
    ((RegionAllocator.allocate_by_size s sz alignment).1 = none →
      (RegionAllocator.allocate_by_size s sz alignment).2 = s) :=
  ⟨(RegionAllocator.allocate_by_addr_spec s b sz).2.2,
   RegionAllocator.allocate_by_size_snd_none s sz alignment⟩

/-- C9 (witness): both failure paths applied to the empty state. -/
theorem C9_failed_allocation_preserves_state_witness :
    (RegionAllocator.allocate_by_addr ([] : List Region) 0 5).2 = [] ∧
    (RegionAllocator.allocate_by_size ([] : List Region) 5 9).2 = [] :=
  ⟨(C9_failed_allocation_preserves_state [] 0 5 9).1 (by decide),
   (C9_failed_allocation_preserves_state [] 0 5 9).2 (by decide)⟩

/-- C10: if no stored region satisfies the inclusive test
`r.base ≤ b ≤ r.base + r.size`, then `add(b, 0)` inserts the zero-size
region `(b, 0)`: `len` grows by one, `check_region(b, 0)` holds, and
`check_point(b)` holds, even though `[b, b)` is empty. -/
theorem C10_add_zero_size_region {s : List Region} {b : Nat}
    (h : ∀ r ∈ s, ¬ (r.base ≤ b ∧ b ≤ r.base + r.size)) :
    RegionAllocator.len (RegionAllocator.add s b 0) =
      RegionAllocator.len s + 1 ∧
    RegionAllocator.check_region (RegionAllocator.add s b 0) b 0 = true ∧
    RegionAllocator.check_point (RegionAllocator.add s b 0) b = true := by
  have hnt : ∀ r ∈ s, ¬ RegionAllocator.touches r ⟨b, 0⟩ := by
    intro r hr
    rw [RegionAllocator.touches_iff]
    simp only [Region.last]
    have := h r hr
    omega
  have hadd := RegionAllocator.add_no_touch hnt
  have hmem0 : (⟨b, 0⟩ : Region) ∉ s :=
    fun hm => h _ hm ⟨Nat.le_refl b, Nat.le_refl b⟩
  refine ⟨?_, ?_, ?_⟩
  · rw [hadd]
    unfold RegionAllocator.len
    exact RegionAllocator.length_insert_internal_of_not_mem hmem0
  · rw [hadd]
    unfold RegionAllocator.check_region
    have hm : (⟨b, 0⟩ : Region) ∈
        RegionAllocator.insert_internal ⟨b, 0⟩ s :=
      RegionAllocator.mem_insert_internal.mpr (Or.inl rfl)
    simp [List.elem_iff, hm]
  · rw [hadd]
    unfold RegionAllocator.check_point
    rw [List.any_eq_true]
    exact ⟨⟨b, 0⟩, RegionAllocator.mem_insert_internal.mpr (Or.inl rfl),
      by simp⟩

/-- C10 (witness): the zero-size insertion applied to the state `{(0,3)}`
at address `5`. -/
theorem C10_add_zero_size_region_witness :
    (∀ r ∈ [(⟨0, 3⟩ : Region)], ¬ (r.base ≤ 5 ∧ 5 ≤ r.base + r.size)) ∧
    RegionAllocator.len (RegionAllocator.add [(⟨0, 3⟩ : Region)] 5 0) =
      RegionAllocator.len [(⟨0, 3⟩ : Region)] + 1 ∧
    RegionAllocator.check_region
      (RegionAllocator.add [(⟨0, 3⟩ : Region)] 5 0) 5 0 = true ∧
    RegionAllocator.check_point
      (RegionAllocator.add [(⟨0, 3⟩ : Region)] 5 0) 5 = true :=
  ⟨by decide, C10_add_zero_size_region (by decide)⟩
